import Mathlib

/-!
# TeslaCam viewer core: verification of the specified behaviour

A shallow embedding of the core logic of `teslacam_viewer.py`:

* the event segmenter inside `TeslaCamViewer.refresh_file_list`
  (grouping per-folder front-camera clips by timestamp gaps),
* `MultiVideoCapture` (the virtual concatenated segment stream:
  offset table, read, get, set),
* the per-camera capture map used by `load_merged_video`,
  `seek_video` and `export_video_file`,
* the 2x2 grid composition of `show_merged_frame` and of the export
  loop, and
* the export loop itself with its progress reporting.

Modelling conventions:

* A segment file is modelled by the outcome of probing it with the
  external decoder: `none` means the file cannot be opened
  (missing or corrupt), `some n` means it opens and reports `n`
  frames.  Pixels are not modelled; a decoded frame is identified
  by an opaque `Nat`.
* The external single-file capture keeps a position `pos` in
  `[0, n]` for an `n`-frame file: `read` succeeds exactly when
  `pos < n` and advances `pos`; setting `CAP_PROP_POS_FRAMES`
  clamps the requested local position into `[0, n]` (OpenCV clamps
  a seek target to the frame count); `get(CAP_PROP_POS_FRAMES)` on
  a capture that is not opened returns 0, as does reading from it.
* Timestamps are integers (whole seconds); the gap test
  `(t - u).total_seconds() <= 900` is exact integer arithmetic in
  the source because parsed timestamps are whole seconds.
* Fractions and progress values are rationals; the GUI slider value
  is the rational `value` in `[0, 100]` and the displayed progress
  is the rational the code computes.
* The export loop is given explicit fuel and returns `none` when
  the fuel runs out (or when no capture opened, where the source
  raises); all theorems use runs that finish within their fuel.
-/

/-! ## Event segmentation (`refresh_file_list`, lines 966-991)

`refresh_file_list` collects, per folder, the front-camera clips
with their parsed timestamps (`None` when unparseable), sorts them
by `x[1] if x[1] else datetime.min`, and then walks the sorted list
building `current_event`, starting a new event when the gap to the
previous clip's timestamp exceeds 900 seconds, skipping clips with
no timestamp via `continue`. -/

/-- The grouping walk restricted to parseable timestamps: `cur` is the
already-accumulated part of the current event in reverse order, `t` the
previous clip's timestamp (the last element of `current_event`). -/
def groupEventsAux (cur : List Int) (t : Int) : List Int → List (List Int)
  | [] => [(t :: cur).reverse]
  | u :: rest =>
    if u - t ≤ 900 then groupEventsAux (t :: cur) u rest
    else (t :: cur).reverse :: groupEventsAux [] u rest

/-- Grouping a list of parseable timestamps into events, as the loop in
`refresh_file_list` does for a folder whose clips all carry timestamps. -/
def groupEvents : List Int → List (List Int)
  | [] => []
  | t :: rest => groupEventsAux [] t rest

/-- The literal loop of `refresh_file_list`: it walks clips whose
timestamp may be missing (`none`) and skips the missing ones with
`continue`.  `cur` is `current_event` in reverse order (its head is the
previous timestamp `current_event[-1][1]`). -/
def groupClipsAux (cur : List Int) : List (Option Int) → List (List Int)
  | [] => if cur.isEmpty then [] else [cur.reverse]
  | none :: rest => groupClipsAux cur rest
  | some t :: rest =>
    match cur with
    | [] => groupClipsAux [t] rest
    | last :: prev =>
      if t - last ≤ 900 then groupClipsAux (t :: last :: prev) rest
      else (last :: prev).reverse :: groupClipsAux [t] rest

/-- The events built by `refresh_file_list` from one folder's clip list
(after sorting): clips without a parseable timestamp are skipped. -/
def groupClips (clips : List (Option Int)) : List (List Int) :=
  groupClipsAux [] clips

/-- Sort key used by `refresh_file_list`: a clip with no parseable
timestamp is keyed by `datetime.min`, modelled as 0 with timestamps
measured in whole seconds from `datetime.min`. -/
def sortKeyDT : Option Int → Int
  | some t => t
  | none => 0

/-- The sort `clips.sort(key=lambda x: x[1] if x[1] else datetime.min)`:
Python's sort is stable, as is insertion sort, so both produce the same
list for this key. -/
def sortClips (clips : List (Option Int)) : List (Option Int) :=
  clips.insertionSort (fun a b => sortKeyDT a ≤ sortKeyDT b)

/-- One folder's event list as `refresh_file_list` computes it: sort by
the timestamp key, then group. -/
def folderEvents (clips : List (Option Int)) : List (List Int) :=
  groupClips (sortClips clips)

theorem groupEventsAux_join (rest : List Int) :
    ∀ cur t, (groupEventsAux cur t rest).flatten = cur.reverse ++ t :: rest := by
  induction rest with
  | nil => intro cur t; simp [groupEventsAux]
  | cons u r ih =>
    intro cur t
    by_cases h : u - t ≤ 900
    · simp [groupEventsAux, h, ih]
    · simp [groupEventsAux, h, ih]

theorem groupEventsAux_ne_nil (rest : List Int) :
    ∀ cur t g, g ∈ groupEventsAux cur t rest → g ≠ [] := by
  induction rest with
  | nil =>
    intro cur t g hg
    simp [groupEventsAux] at hg
    subst hg; simp
  | cons u r ih =>
    intro cur t g hg
    by_cases h : u - t ≤ 900
    · simp only [groupEventsAux, if_pos h] at hg
      exact ih _ _ _ hg
    · simp only [groupEventsAux, if_neg h, List.mem_cons] at hg
      rcases hg with hg | hg
      · subst hg; simp
      · exact ih _ _ _ hg

theorem groupEventsAux_chain (rest : List Int) :
    ∀ cur t, (cur.reverse ++ [t]).Chain' (fun a b => b - a ≤ 900) →
      ∀ g ∈ groupEventsAux cur t rest, g.Chain' (fun a b => b - a ≤ 900) := by
  induction rest with
  | nil =>
    intro cur t hcur g hg
    simp [groupEventsAux] at hg
    subst hg
    simpa using hcur
  | cons u r ih =>
    intro cur t hcur g hg
    by_cases h : u - t ≤ 900
    · simp only [groupEventsAux, if_pos h] at hg
      refine ih _ _ ?_ g hg
      have : ((t :: cur).reverse ++ [u]) = (cur.reverse ++ [t]) ++ [u] := by simp
      rw [this]
      apply List.Chain'.append hcur (by simp)
      intro a ha b hb
      simp at ha hb
      omega
    · simp only [groupEventsAux, if_neg h, List.mem_cons] at hg
      rcases hg with hg | hg
      · subst hg; simpa using hcur
      · exact ih _ _ (by simp) g hg

/-- The first group produced by the walk starts with the accumulated
prefix: there are `tl` and `gs` with result `(cur.reverse ++ t :: tl) :: gs`. -/
theorem groupEventsAux_first (rest : List Int) :
    ∀ cur t, ∃ tl gs, groupEventsAux cur t rest = (cur.reverse ++ t :: tl) :: gs := by
  induction rest with
  | nil =>
    intro cur t
    exact ⟨[], [], by simp [groupEventsAux]⟩
  | cons u r ih =>
    intro cur t
    by_cases h : u - t ≤ 900
    · obtain ⟨tl, gs, hg⟩ := ih (t :: cur) u
      refine ⟨u :: tl, gs, ?_⟩
      simp only [groupEventsAux, if_pos h, hg]
      simp
    · obtain ⟨tl, gs, hg⟩ := ih [] u
      refine ⟨[], (([] : List Int).reverse ++ u :: tl) :: gs, ?_⟩
      simp only [groupEventsAux, if_neg h, hg]
      simp

theorem groupEventsAux_boundary (rest : List Int) :
    ∀ cur t, (groupEventsAux cur t rest).Chain'
      (fun g h => ∀ a ∈ g.getLast?, ∀ b ∈ h.head?, 900 < b - a) := by
  induction rest with
  | nil => intro cur t; simp [groupEventsAux]
  | cons u r ih =>
    intro cur t
    by_cases h : u - t ≤ 900
    · simp only [groupEventsAux, if_pos h]
      exact ih (t :: cur) u
    · simp only [groupEventsAux, if_neg h]
      obtain ⟨tl, gs, hg⟩ := groupEventsAux_first r [] u
      rw [hg]
      refine List.Chain'.cons ?_ (hg ▸ ih [] u)
      intro a ha b hb
      simp at ha hb
      subst ha hb
      omega

/-- C1: For a sorted list of parseable timestamps, the segmenter in
`refresh_file_list` closes groups exactly at the gaps above 900 seconds:
the groups concatenate back to the input, no group is empty, inside a
group consecutive timestamps are at most 900 seconds apart, and across a
group boundary the gap exceeds 900 seconds; the final open group is
closed at the end of the list. -/
theorem eventSegmenter_splits_exactly_on_gaps (ts : List Int)
    (hs : ts.Chain' (· ≤ ·)) :
    (groupEvents ts).flatten = ts ∧
    (∀ g ∈ groupEvents ts, g ≠ []) ∧
    (∀ g ∈ groupEvents ts, g.Chain' (fun a b => b - a ≤ 900)) ∧
    (groupEvents ts).Chain'
      (fun g h => ∀ a ∈ g.getLast?, ∀ b ∈ h.head?, 900 < b - a) := by
  clear hs
  cases ts with
  | nil => simp [groupEvents]
  | cons t rest =>
    refine ⟨?_, ?_, ?_, ?_⟩
    · simpa using groupEventsAux_join rest [] t
    · exact fun g hg => groupEventsAux_ne_nil rest [] t g hg
    · exact fun g hg => groupEventsAux_chain rest [] t (by simp) g hg
    · exact groupEventsAux_boundary rest [] t

/-- Witness for C1 at the concrete sorted timestamp list
`[0, 100, 1100]` (gaps 100 and 1000, splitting after the second entry). -/
theorem eventSegmenter_splits_exactly_on_gaps_witness :
    (groupEvents [0, 100, 1100]).flatten = [0, 100, 1100] ∧
    (∀ g ∈ groupEvents [0, 100, 1100], g ≠ []) ∧
    (∀ g ∈ groupEvents [0, 100, 1100], g.Chain' (fun a b => b - a ≤ 900)) ∧
    (groupEvents [0, 100, 1100]).Chain'
      (fun g h => ∀ a ∈ g.getLast?, ∀ b ∈ h.head?, 900 < b - a) :=
  eventSegmenter_splits_exactly_on_gaps [0, 100, 1100] (by simp)

/-! ## MultiVideoCapture (lines 22-107)

State: the probed segment list (`video_paths`, each entry the probe
outcome for one file), the index of the currently open clip, and the
local frame position of the underlying capture. -/

/-- Frames contributed by one probed segment to the offset table:
an unopenable segment contributes zero frames. -/
def clipFrames : Option Nat → Nat
  | some n => n
  | none => 0

/-- The running-offset loop of `MultiVideoCapture.__init__`, carrying
`current_offset`: each segment's entry is the offset accumulated before
probing it. -/
def offsetsFrom (acc : Nat) : List (Option Nat) → List Nat
  | [] => []
  | c :: cs => acc :: offsetsFrom (acc + clipFrames c) cs

/-- `frame_offsets` as built in `__init__`: starting frame number of
each clip. -/
def frame_offsets (paths : List (Option Nat)) : List Nat :=
  offsetsFrom 0 paths

/-- `total_frames` as accumulated in `__init__`: frames are added only
when the probe capture opened. -/
def total_frames (paths : List (Option Nat)) : Nat :=
  paths.foldl (fun acc c => match c with | some n => acc + n | none => acc) 0

structure MultiVideoCapture where
  video_paths : List (Option Nat)
  current_clip_index : Nat
  local_pos : Nat
deriving DecidableEq

/-- `__init__`: offsets and total are derived from `video_paths`; the
first clip is opened (its capture may fail to open, which `isOpened`
reflects). -/
def MultiVideoCapture.init (paths : List (Option Nat)) : MultiVideoCapture :=
  ⟨paths, 0, 0⟩

/-- `isOpened`: there is a current capture (the list is non-empty, so a
capture object exists at `current_clip_index`) and it opened. -/
def MultiVideoCapture.isOpened (m : MultiVideoCapture) : Bool :=
  match m.video_paths[m.current_clip_index]? with
  | some (some _) => true
  | _ => false

/-- `read`: try the current clip; at end of clip, if a next clip exists,
release, open the next clip and retry exactly once.  An unopened current
capture returns no frame without advancing. -/
def MultiVideoCapture.read (m : MultiVideoCapture) : Bool × MultiVideoCapture :=
  match m.video_paths[m.current_clip_index]? with
  | some (some n) =>
    if m.local_pos < n then
      (true, { m with local_pos := m.local_pos + 1 })
    else if m.current_clip_index < m.video_paths.length - 1 then
      match m.video_paths[m.current_clip_index + 1]? with
      | some (some k) =>
        if 0 < k then
          (true, { m with current_clip_index := m.current_clip_index + 1, local_pos := 1 })
        else
          (false, { m with current_clip_index := m.current_clip_index + 1, local_pos := 0 })
      | _ => (false, { m with current_clip_index := m.current_clip_index + 1, local_pos := 0 })
    else (false, m)
  | _ => (false, m)

/-- `get(cv2.CAP_PROP_FRAME_COUNT)`: the precomputed total. -/
def MultiVideoCapture.getFrameCount (m : MultiVideoCapture) : Nat :=
  total_frames m.video_paths

/-- `get(cv2.CAP_PROP_POS_FRAMES)`: offset of the current clip plus the
position within it; 0 when the current capture is not opened. -/
def MultiVideoCapture.getPosFrames (m : MultiVideoCapture) : Nat :=
  match m.video_paths[m.current_clip_index]? with
  | some (some _) => (frame_offsets m.video_paths).getD m.current_clip_index 0 + m.local_pos
  | _ => 0

/-- The clip-search loop of `set`: the first index `i` with
`i == len(frame_offsets) - 1 or target < frame_offsets[i + 1]`. -/
def owningClip : List Nat → Nat → Option Nat
  | [], _ => none
  | [_], _ => some 0
  | _ :: o2 :: rest, v =>
    if v < o2 then some 0 else (owningClip (o2 :: rest) v).map (· + 1)

/-- The underlying capture's reaction to `set(CAP_PROP_POS_FRAMES, v)`
on an `n`-frame file: the position is clamped into `[0, n]`. -/
def cvLocalSeek (n v : Nat) : Nat := min v n

/-- `set(cv2.CAP_PROP_POS_FRAMES, v)`: find the owning clip, switch to
it if different (reopening resets the local position), then seek within
it when the capture opened.  An empty offset table leaves the state
unchanged (the loop body never runs). -/
def MultiVideoCapture.setPosFrames (m : MultiVideoCapture) (v : Nat) : MultiVideoCapture :=
  match owningClip (frame_offsets m.video_paths) v with
  | none => m
  | some i =>
    let base := (frame_offsets m.video_paths).getD i 0
    match m.video_paths[i]? with
    | some (some n) =>
      { m with current_clip_index := i, local_pos := cvLocalSeek n (v - base) }
    | _ =>
      { m with current_clip_index := i,
               local_pos := if i = m.current_clip_index then m.local_pos else 0 }

/-! ### Offset table lemmas -/

theorem offsetsFrom_length (l : List (Option Nat)) :
    ∀ acc, (offsetsFrom acc l).length = l.length := by
  induction l with
  | nil => intro acc; rfl
  | cons c cs ih => intro acc; simp [offsetsFrom, ih]

theorem total_frames_eq_sum (paths : List (Option Nat)) :
    total_frames paths = (paths.map clipFrames).sum := by
  suffices h : ∀ acc, paths.foldl
      (fun acc c => match c with | some n => acc + n | none => acc) acc
      = acc + (paths.map clipFrames).sum by
    simpa using h 0
  induction paths with
  | nil => intro acc; simp
  | cons c cs ih =>
    intro acc
    cases c with
    | some n => simp [ih, clipFrames]; omega
    | none => simp [ih, clipFrames]

theorem offsetsFrom_getD (l : List (Option Nat)) :
    ∀ acc i, i < l.length →
      (offsetsFrom acc l).getD i 0 = acc + ((l.take i).map clipFrames).sum := by
  induction l with
  | nil => intro acc i h; simp at h
  | cons c cs ih =>
    intro acc i h
    cases i with
    | zero => simp [offsetsFrom]
    | succ j =>
      simp only [offsetsFrom, List.getD_cons_succ, List.take_succ_cons, List.map_cons,
        List.sum_cons]
      rw [ih _ j (by simpa using h)]
      omega

theorem frame_offsets_succ (paths : List (Option Nat)) (i : Nat)
    (h : i + 1 < paths.length) :
    (frame_offsets paths).getD (i + 1) 0
      = (frame_offsets paths).getD i 0 + clipFrames (paths.getD i none) := by
  rw [frame_offsets, offsetsFrom_getD _ _ _ h, offsetsFrom_getD _ _ _ (by omega)]
  have : paths.take (i + 1) = paths.take i ++ [paths.getD i none] := by
    have hi : i < paths.length := by omega
    rw [List.take_succ]
    simp [List.getElem?_eq_getElem hi, List.getD, List.getElem?_eq_getElem hi]
  rw [this]
  simp [Nat.add_assoc]

/-- `total_frames` splits at any valid index into the offset and the
frames of the remaining clips. -/
theorem total_frames_split (paths : List (Option Nat)) (i : Nat)
    (h : i < paths.length) :
    total_frames paths
      = (frame_offsets paths).getD i 0 + ((paths.drop i).map clipFrames).sum := by
  rw [total_frames_eq_sum, frame_offsets, offsetsFrom_getD _ _ _ h]
  have := List.take_append_drop i paths
  calc (paths.map clipFrames).sum
      = ((paths.take i ++ paths.drop i).map clipFrames).sum := by rw [this]
    _ = ((paths.take i).map clipFrames).sum + ((paths.drop i).map clipFrames).sum := by
        simp
    _ = 0 + ((paths.take i).map clipFrames).sum + ((paths.drop i).map clipFrames).sum := by
        omega

/-! ### The clip-search loop of `set` -/

theorem owningClip_isSome (offs : List Nat) (v : Nat) (h : offs ≠ []) :
    (owningClip offs v).isSome := by
  induction offs with
  | nil => simp at h
  | cons o rest ih =>
    cases rest with
    | nil => simp [owningClip]
    | cons o2 rs =>
      by_cases hv : v < o2
      · simp [owningClip, hv]
      · obtain ⟨j, hj⟩ := Option.isSome_iff_exists.mp (ih (by simp))
        simp [owningClip, hv, hj]

theorem owningClip_lt_length (offs : List Nat) :
    ∀ v i, owningClip offs v = some i → i < offs.length := by
  induction offs with
  | nil => intro v i h; simp [owningClip] at h
  | cons o rest ih =>
    intro v i h
    cases rest with
    | nil =>
      simp only [owningClip, Option.some.injEq] at h
      simp only [List.length_cons, List.length_nil]
      omega
    | cons o2 rs =>
      by_cases hv : v < o2
      · simp only [owningClip, if_pos hv, Option.some.injEq] at h
        simp only [List.length_cons]
        omega
      · simp only [owningClip, if_neg hv, Option.map_eq_some'] at h
        obtain ⟨j, hj, hij⟩ := h
        have := ih v j hj
        simp only [List.length_cons] at this ⊢
        omega

theorem owningClip_base_le (offs : List Nat) :
    ∀ v i, owningClip offs v = some i → offs.getD 0 0 ≤ v → offs.getD i 0 ≤ v := by
  induction offs with
  | nil => intro v i h; simp [owningClip] at h
  | cons o rest ih =>
    intro v i h h0
    cases rest with
    | nil =>
      simp [owningClip] at h
      subst h; simpa using h0
    | cons o2 rs =>
      by_cases hv : v < o2
      · simp only [owningClip, if_pos hv, Option.some.injEq] at h
        subst h; simpa using h0
      · simp only [owningClip, if_neg hv, Option.map_eq_some'] at h
        obtain ⟨j, hj, hij⟩ := h
        subst hij
        simpa using ih v j hj (by simpa using Nat.le_of_not_lt hv)

theorem owningClip_next (offs : List Nat) :
    ∀ v i, owningClip offs v = some i → i + 1 < offs.length → v < offs.getD (i + 1) 0 := by
  induction offs with
  | nil => intro v i h; simp [owningClip] at h
  | cons o rest ih =>
    intro v i h hlen
    cases rest with
    | nil => simp [owningClip] at h; subst h; simp at hlen
    | cons o2 rs =>
      by_cases hv : v < o2
      · simp only [owningClip, if_pos hv, Option.some.injEq] at h
        subst h; simpa using hv
      · simp only [owningClip, if_neg hv, Option.map_eq_some'] at h
        obtain ⟨j, hj, hij⟩ := h
        subst hij
        have := ih v j hj (by simpa using hlen)
        simpa using this

theorem frame_offsets_getD_le_total (paths : List (Option Nat)) (j : Nat)
    (h : j < paths.length) :
    (frame_offsets paths).getD j 0 ≤ total_frames paths := by
  rw [total_frames_split paths j h]
  omega

/-- C8: the offset table of a `MultiVideoCapture` satisfies
`offset[0] = 0` and `offset[i+1] = offset[i] + frames(segment[i])`
(an unopenable segment contributing zero frames), and the reported
total frame count is the sum of all segments' contributed counts. -/
theorem offsetTable_invariant (paths : List (Option Nat)) :
    (frame_offsets paths).length = paths.length ∧
    (paths ≠ [] → (frame_offsets paths).getD 0 0 = 0) ∧
    (∀ i, i + 1 < paths.length →
      (frame_offsets paths).getD (i + 1) 0
        = (frame_offsets paths).getD i 0 + clipFrames (paths.getD i none)) ∧
    (MultiVideoCapture.init paths).getFrameCount = (paths.map clipFrames).sum := by
  refine ⟨offsetsFrom_length paths 0, ?_, frame_offsets_succ paths, ?_⟩
  · intro h
    cases paths with
    | nil => simp at h
    | cons c cs => rfl
  · exact total_frames_eq_sum paths

/-- Witness for C8 at segment counts `[10, 7, 5]`: the offset step at
index 0, the zero first offset, and `totalFrames() == 22`. -/
theorem offsetTable_invariant_witness :
    (frame_offsets [some 10, some 7, some 5]).getD 1 0
      = (frame_offsets [some 10, some 7, some 5]).getD 0 0
        + clipFrames (([some 10, some 7, some 5] : List (Option Nat)).getD 0 none) ∧
    (frame_offsets [some 10, some 7, some 5]).getD 0 0 = 0 ∧
    (MultiVideoCapture.init [some 10, some 7, some 5]).getFrameCount = 22 :=
  ⟨(offsetTable_invariant [some 10, some 7, some 5]).2.2.1 0 (by decide),
   (offsetTable_invariant [some 10, some 7, some 5]).2.1 (by decide),
   by decide⟩

/-- C6 (amended): the constructed stream reports itself opened exactly
when the segment list is non-empty and its first segment opens; the
availability of later segments plays no part. -/
theorem trackOpen_iff_first_segment (paths : List (Option Nat)) :
    (MultiVideoCapture.init paths).isOpened = true
      ↔ ∃ n, paths.head? = some (some n) := by
  cases paths with
  | nil => simp [MultiVideoCapture.init, MultiVideoCapture.isOpened]
  | cons c cs =>
    cases c with
    | none => simp [MultiVideoCapture.init, MultiVideoCapture.isOpened]
    | some n => simp [MultiVideoCapture.init, MultiVideoCapture.isOpened]

/-- Counterexample to C6: a list whose first segment is unopenable but
whose second segment opens is reported NOT opened, while the second
segment alone would open; so a partially-available list whose first
entry is missing is rejected, contrary to the claim. -/
theorem trackOpen_first_missing_cex :
    (MultiVideoCapture.init [none, some 5]).isOpened = false ∧
    (MultiVideoCapture.init [some 5]).isOpened = true := by decide

/-- C5 (amended): `read` yields a frame exactly when the current clip
still has an unread frame, or the current clip is finished and the
immediately following clip opens with at least one frame.  It advances
at most one clip per call and retries exactly once, so it can report
no-frame even though a clip after the next one still holds frames. -/
theorem readNext_succeeds_iff (m : MultiVideoCapture) :
    (m.read).1 = true ↔
      ∃ n, m.video_paths[m.current_clip_index]? = some (some n) ∧
        (m.local_pos < n ∨
          (n ≤ m.local_pos ∧ m.current_clip_index < m.video_paths.length - 1 ∧
            ∃ k, m.video_paths[m.current_clip_index + 1]? = some (some k) ∧ 0 < k)) := by
  cases hc : m.video_paths[m.current_clip_index]? with
  | none => simp [MultiVideoCapture.read, hc]
  | some c =>
    cases c with
    | none => simp [MultiVideoCapture.read, hc]
    | some n =>
      by_cases h1 : m.local_pos < n
      · simp [MultiVideoCapture.read, hc, h1]
      · by_cases h2 : m.current_clip_index < m.video_paths.length - 1
        · cases hn : m.video_paths[m.current_clip_index + 1]? with
          | none => simp [MultiVideoCapture.read, hc, h1, h2, hn]
          | some c2 =>
            cases c2 with
            | none => simp [MultiVideoCapture.read, hc, h1, h2, hn]
            | some k =>
              by_cases hk : 0 < k
              · simp [MultiVideoCapture.read, hc, h1, h2, hn, hk]
                omega
              · simp [MultiVideoCapture.read, hc, h1, h2, hn, hk]
        · simp [MultiVideoCapture.read, hc, h1, h2]

/-- Counterexample to C5: with segments of frame counts `[1, 0, 1]` the
second `read` reports no frame (the retry lands on the empty middle
segment) although the third segment still yields a frame, as the third
`read` shows. -/
theorem readNext_false_despite_later_frames_cex :
    (((MultiVideoCapture.init [some 1, some 0, some 1]).read).2.read).1 = false ∧
    ((((MultiVideoCapture.init [some 1, some 0, some 1]).read).2.read).2.read).1 = true := by
  decide

/-! ### State preservation of `read` and `set` (for the index invariant) -/

theorem read_state (m : MultiVideoCapture) :
    (m.read).2.video_paths = m.video_paths ∧
    (m.current_clip_index < m.video_paths.length →
      (m.read).2.current_clip_index < m.video_paths.length) := by
  cases hc : m.video_paths[m.current_clip_index]? with
  | none => simp [MultiVideoCapture.read, hc]
  | some c =>
    cases c with
    | none => simp [MultiVideoCapture.read, hc]
    | some n =>
      by_cases h1 : m.local_pos < n
      · simp [MultiVideoCapture.read, hc, h1]
      · by_cases h2 : m.current_clip_index < m.video_paths.length - 1
        · cases hn : m.video_paths[m.current_clip_index + 1]? with
          | none =>
            simp [MultiVideoCapture.read, hc, h1, h2, hn]
            omega
          | some c2 =>
            cases c2 with
            | none =>
              simp [MultiVideoCapture.read, hc, h1, h2, hn]
              omega
            | some k =>
              by_cases hk : 0 < k
              · simp [MultiVideoCapture.read, hc, h1, h2, hn, hk]
                omega
              · simp [MultiVideoCapture.read, hc, h1, h2, hn, hk]
                omega
        · simp [MultiVideoCapture.read, hc, h1, h2]

theorem frame_offsets_ne_nil (paths : List (Option Nat)) (h : paths ≠ []) :
    frame_offsets paths ≠ [] := by
  cases paths with
  | nil => simp at h
  | cons c cs => simp [frame_offsets, offsetsFrom]

theorem frame_offsets_length (paths : List (Option Nat)) :
    (frame_offsets paths).length = paths.length :=
  offsetsFrom_length paths 0

theorem setPos_state (m : MultiVideoCapture) (v : Nat) :
    (m.setPosFrames v).video_paths = m.video_paths ∧
    (m.current_clip_index < m.video_paths.length →
      (m.setPosFrames v).current_clip_index < m.video_paths.length) := by
  cases ho : owningClip (frame_offsets m.video_paths) v with
  | none => simp [MultiVideoCapture.setPosFrames, ho]
  | some i =>
    have hi : i < m.video_paths.length := by
      have := owningClip_lt_length _ v i ho
      rwa [frame_offsets_length] at this
    cases hp : m.video_paths[i]? with
    | none => simp [MultiVideoCapture.setPosFrames, ho, hp, hi]
    | some c =>
      cases c with
      | none => simp [MultiVideoCapture.setPosFrames, ho, hp, hi]
      | some n => simp [MultiVideoCapture.setPosFrames, ho, hp, hi]

/-- Operations a caller can perform on a `MultiVideoCapture` that touch
its clip index: `read()` and `set(cv2.CAP_PROP_POS_FRAMES, v)`.  Any
other `set` call is forwarded to the underlying capture and leaves the
clip index and segment list untouched. -/
inductive CapOp where
  | read : CapOp
  | seek (v : Nat) : CapOp
deriving DecidableEq

def applyOp (m : MultiVideoCapture) : CapOp → MultiVideoCapture
  | CapOp.read => (m.read).2
  | CapOp.seek v => m.setPosFrames v

def applyOps (m : MultiVideoCapture) (ops : List CapOp) : MultiVideoCapture :=
  ops.foldl applyOp m

theorem applyOp_state (m : MultiVideoCapture) (op : CapOp) :
    (applyOp m op).video_paths = m.video_paths ∧
    (m.current_clip_index < m.video_paths.length →
      (applyOp m op).current_clip_index < m.video_paths.length) := by
  cases op with
  | read => exact read_state m
  | seek v => exact setPos_state m v

/-- C10: starting from a non-empty segment list, any sequence of `read`
and `set(CAP_PROP_POS_FRAMES, v)` calls keeps `current_clip_index`
inside `[0, len(video_paths) - 1]`, and the segment list itself never
changes, so indexing `video_paths` and `frame_offsets` (which has the
same length) stays in bounds. -/
theorem capture_index_in_bounds (paths : List (Option Nat)) (h : paths ≠ [])
    (ops : List CapOp) :
    (applyOps (MultiVideoCapture.init paths) ops).video_paths = paths ∧
    (applyOps (MultiVideoCapture.init paths) ops).current_clip_index < paths.length := by
  have main : ∀ ops (m : MultiVideoCapture),
      m.current_clip_index < m.video_paths.length →
      (applyOps m ops).video_paths = m.video_paths ∧
      (applyOps m ops).current_clip_index < m.video_paths.length := by
    intro ops
    induction ops with
    | nil => intro m hm; exact ⟨rfl, hm⟩
    | cons op rest ih =>
      intro m hm
      have hop := applyOp_state m op
      have h2 : (applyOp m op).current_clip_index < (applyOp m op).video_paths.length := by
        rw [hop.1]; exact hop.2 hm
      have h3 := ih (applyOp m op) h2
      constructor
      · calc (applyOps m (op :: rest)).video_paths
            = (applyOps (applyOp m op) rest).video_paths := rfl
          _ = (applyOp m op).video_paths := h3.1
          _ = m.video_paths := hop.1
      · have h4 := h3.2
        rw [hop.1] at h4
        exact h4
  have h0 : (MultiVideoCapture.init paths).current_clip_index
      < (MultiVideoCapture.init paths).video_paths.length := by
    simpa [MultiVideoCapture.init] using List.length_pos.mpr h
  exact main ops (MultiVideoCapture.init paths) h0

/-- Witness for C10 on a concrete two-segment list and a concrete
read/seek/read call sequence. -/
theorem capture_index_in_bounds_witness :
    (applyOps (MultiVideoCapture.init [some 2, none])
        [CapOp.read, CapOp.seek 5, CapOp.read]).video_paths = [some 2, none] ∧
    (applyOps (MultiVideoCapture.init [some 2, none])
        [CapOp.read, CapOp.seek 5, CapOp.read]).current_clip_index
      < ([some 2, none] : List (Option Nat)).length :=
  capture_index_in_bounds [some 2, none] (by decide) [CapOp.read, CapOp.seek 5, CapOp.read]

/-! ### Seek round trip (C2) -/

theorem total_frames_last (paths : List (Option Nat)) (h : paths ≠ []) :
    total_frames paths
      = (frame_offsets paths).getD (paths.length - 1) 0
        + clipFrames (paths.getD (paths.length - 1) none) := by
  have hlt : paths.length - 1 < paths.length := by
    cases paths with
    | nil => simp at h
    | cons a l => simp
  rw [total_frames_split paths _ hlt]
  congr 1
  rw [List.drop_eq_getElem_cons hlt]
  have hnil : paths.drop (paths.length - 1 + 1) = [] := List.drop_eq_nil_of_le (by omega)
  rw [hnil]
  simp [List.getD, List.getElem?_eq_getElem hlt]

theorem clip_openable_of_frames_pos (paths : List (Option Nat)) (i : Nat)
    (hi : i < paths.length) (hpos : 0 < clipFrames (paths.getD i none)) :
    paths[i]? = some (some (clipFrames (paths.getD i none))) := by
  have hd := List.getD_eq_getElem paths none hi
  rw [List.getElem?_eq_getElem hi]
  cases hc : paths[i] with
  | none => rw [hd, hc] at hpos; simp [clipFrames] at hpos
  | some n => rw [hd, hc]; simp [clipFrames]

/-- Bounds of the owning clip found by `set` when the target is inside
the stream: the clip starts at or before the target and ends after it,
so it contributes a positive frame count. -/
theorem owningClip_frames (paths : List (Option Nat)) (k i : Nat)
    (ho : owningClip (frame_offsets paths) k = some i)
    (hk : k < total_frames paths) :
    i < paths.length ∧
    (frame_offsets paths).getD i 0 ≤ k ∧
    k < (frame_offsets paths).getD i 0 + clipFrames (paths.getD i none) := by
  have hne : paths ≠ [] := by
    intro he
    rw [he] at hk
    simp [total_frames] at hk
  have hi : i < paths.length := by
    have := owningClip_lt_length _ k i ho
    rwa [frame_offsets_length] at this
  have h00 : (frame_offsets paths).getD 0 0 = 0 := by
    cases paths with
    | nil => simp at hne
    | cons c cs => rfl
  have hbase : (frame_offsets paths).getD i 0 ≤ k :=
    owningClip_base_le _ k i ho (by omega)
  refine ⟨hi, hbase, ?_⟩
  by_cases hnext : i + 1 < paths.length
  · have h2 := owningClip_next _ k i ho (by rwa [frame_offsets_length])
    have h3 := frame_offsets_succ paths i hnext
    omega
  · have hil : i = paths.length - 1 := by omega
    have h4 := total_frames_last paths hne
    rw [← hil] at h4
    omega

/-- `set` when the owning clip opens with `n` frames: switch to it and
seek locally (clamped by the underlying capture). -/
theorem setPos_open_eq (m : MultiVideoCapture) (v i n : Nat)
    (ho : owningClip (frame_offsets m.video_paths) v = some i)
    (hopen : m.video_paths[i]? = some (some n)) :
    m.setPosFrames v
      = { m with current_clip_index := i,
                 local_pos := cvLocalSeek n (v - (frame_offsets m.video_paths).getD i 0) } := by
  simp [MultiVideoCapture.setPosFrames, ho, hopen]

/-- `get(CAP_PROP_POS_FRAMES)` when the current clip opened. -/
theorem getPos_open_eq (m : MultiVideoCapture) (n : Nat)
    (hopen : m.video_paths[m.current_clip_index]? = some (some n)) :
    m.getPosFrames
      = (frame_offsets m.video_paths).getD m.current_clip_index 0 + m.local_pos := by
  simp [MultiVideoCapture.getPosFrames, hopen]

/-- C2 (amended): seeking to any `k` strictly below the total frame
count and reading the position back returns exactly `k`; seeking to
`k` at or beyond the total, when the last segment is openable, leaves
the position at `totalFrames()` (the end of the last segment, one past
its last frame index), not at the last frame. -/
theorem seek_roundtrip_and_clamp (m : MultiVideoCapture) (k : Nat) :
    (k < m.getFrameCount → (m.setPosFrames k).getPosFrames = k) ∧
    (m.getFrameCount ≤ k →
      ∀ n, m.video_paths.getLast? = some (some n) →
        (m.setPosFrames k).getPosFrames = m.getFrameCount) := by
  constructor
  · intro hk
    rw [MultiVideoCapture.getFrameCount] at hk
    have hne : m.video_paths ≠ [] := by
      intro he
      rw [he] at hk
      simp [total_frames] at hk
    obtain ⟨i, ho⟩ := Option.isSome_iff_exists.mp
      (owningClip_isSome (frame_offsets m.video_paths) k (frame_offsets_ne_nil _ hne))
    obtain ⟨hi, hbase, hupper⟩ := owningClip_frames m.video_paths k i ho hk
    have hframes : 0 < clipFrames (m.video_paths.getD i none) := by omega
    have hopen := clip_openable_of_frames_pos m.video_paths i hi hframes
    rw [setPos_open_eq m k i _ ho hopen]
    rw [getPos_open_eq _ (clipFrames (m.video_paths.getD i none)) (by simpa using hopen)]
    simp only [cvLocalSeek]
    omega
  · intro hk n hlast
    rw [MultiVideoCapture.getFrameCount] at hk ⊢
    have hne : m.video_paths ≠ [] := by
      intro he
      rw [he] at hlast
      simp at hlast
    obtain ⟨i, ho⟩ := Option.isSome_iff_exists.mp
      (owningClip_isSome (frame_offsets m.video_paths) k (frame_offsets_ne_nil _ hne))
    have hi : i < m.video_paths.length := by
      have := owningClip_lt_length _ k i ho
      rwa [frame_offsets_length] at this
    have hil : i = m.video_paths.length - 1 := by
      by_contra hne2
      have hnext : i + 1 < m.video_paths.length := by omega
      have h2 := owningClip_next _ k i ho (by rwa [frame_offsets_length])
      have h3 := frame_offsets_getD_le_total m.video_paths (i + 1) hnext
      omega
    have hopen : m.video_paths[i]? = some (some n) := by
      rw [List.getLast?_eq_getElem?] at hlast
      rw [hil]
      exact hlast
    have hframes : m.video_paths.getD i none = some n := by
      have hgd := List.getD_eq_getElem m.video_paths none hi
      rw [List.getElem?_eq_getElem hi] at hopen
      rw [hgd]
      exact Option.some_injective _ hopen
    have htot := total_frames_last m.video_paths hne
    rw [← hil, hframes] at htot
    have hopen2 : m.video_paths[i]? = some (some n) := by
      rw [List.getElem?_eq_getElem hi]
      exact congrArg some (Option.some_injective _ (by
        have hgd := List.getD_eq_getElem m.video_paths none hi
        rw [← hgd, hframes]))
    rw [setPos_open_eq m k i n ho hopen2]
    rw [getPos_open_eq _ n (by simpa using hopen2)]
    simp only [cvLocalSeek, clipFrames] at htot ⊢
    omega

/-- Counterexample to C2 as stated: on a single 10-frame segment,
seeking to 100 and reading back the position gives 10 (the end of the
stream), not 9 (the index of the last frame), so seeking past the end
does not land on the last frame. -/
theorem seek_clamp_not_last_frame_cex :
    ((MultiVideoCapture.init [some 10]).setPosFrames 100).getPosFrames = 10 ∧
    ((MultiVideoCapture.init [some 10]).setPosFrames 100).getPosFrames ≠ 9 := by
  decide

/-- Witness for C2 on segment counts `[10, 7, 5]`: the round trip at
`k = 12` and the clamp at `k = 100`. -/
theorem seek_roundtrip_and_clamp_witness :
    ((MultiVideoCapture.init [some 10, some 7, some 5]).setPosFrames 12).getPosFrames = 12 ∧
    ((MultiVideoCapture.init [some 10, some 7, some 5]).setPosFrames 100).getPosFrames
      = (MultiVideoCapture.init [some 10, some 7, some 5]).getFrameCount :=
  ⟨(seek_roundtrip_and_clamp (MultiVideoCapture.init [some 10, some 7, some 5]) 12).1
      (by decide),
   (seek_roundtrip_and_clamp (MultiVideoCapture.init [some 10, some 7, some 5]) 100).2
      (by decide) 5 (by decide)⟩

/-! ### Clips without timestamps (C7) -/

theorem groupClipsAux_cons_eq (l : List (Option Int)) :
    ∀ t cs, groupClipsAux (t :: cs) l = groupEventsAux cs t (l.filterMap id) := by
  induction l with
  | nil => intro t cs; simp [groupClipsAux, groupEventsAux]
  | cons c rest ih =>
    intro t cs
    cases c with
    | none =>
      have hf : (none :: rest).filterMap (id : Option Int → Option Int) = rest.filterMap id := by
        simp
      rw [hf, ← ih t cs]
      rfl
    | some u =>
      have hf : (some u :: rest).filterMap (id : Option Int → Option Int)
          = u :: rest.filterMap id := by simp
      rw [hf]
      by_cases h : u - t ≤ 900
      · simp only [groupClipsAux, groupEventsAux, if_pos h]
        exact ih u (t :: cs)
      · simp only [groupClipsAux, groupEventsAux, if_neg h]
        rw [ih u []]

theorem groupClips_eq_filterMap (l : List (Option Int)) :
    groupClips l = groupEvents (l.filterMap id) := by
  induction l with
  | nil => rfl
  | cons c rest ih =>
    cases c with
    | none =>
      have hf : (none :: rest).filterMap (id : Option Int → Option Int) = rest.filterMap id := by
        simp
      rw [groupClips, groupClipsAux, ← groupClips, ih, hf]
    | some t =>
      have hf : (some t :: rest).filterMap (id : Option Int → Option Int)
          = t :: rest.filterMap id := by simp
      rw [groupClips, groupClipsAux, hf, groupEvents]
      exact groupClipsAux_cons_eq rest t []

theorem groupEvents_flatten (ts : List Int) : (groupEvents ts).flatten = ts := by
  cases ts with
  | nil => rfl
  | cons t rest => simpa using groupEventsAux_join rest [] t

/-- C7 (amended): clips without a parseable timestamp are excluded from
grouping entirely - the folder's events are exactly the gap-grouping of
the parseable timestamps that survive the sort - and every timestamp
appearing in any event comes from a parseable clip of the folder; no
single-segment event is emitted for an unparseable clip (and the sort
keys them with the minimal datetime, placing them first, not last). -/
theorem unparseable_clips_excluded (clips : List (Option Int)) :
    folderEvents clips = groupEvents ((sortClips clips).filterMap id) ∧
    ∀ g ∈ folderEvents clips, ∀ t ∈ g, some t ∈ clips := by
  have h1 : folderEvents clips = groupEvents ((sortClips clips).filterMap id) :=
    groupClips_eq_filterMap (sortClips clips)
  refine ⟨h1, ?_⟩
  intro g hg t ht
  have hmem : t ∈ ((sortClips clips).filterMap id) := by
    rw [← groupEvents_flatten ((sortClips clips).filterMap id)]
    rw [← h1]
    exact List.mem_flatten.mpr ⟨g, hg, ht⟩
  have hsome : some t ∈ sortClips clips := by
    obtain ⟨a, ha, hat⟩ := List.mem_filterMap.mp hmem
    have ha2 : a = some t := by simpa using hat
    exact ha2 ▸ ha
  have hperm : (sortClips clips).Perm clips :=
    List.perm_insertionSort (fun a b => sortKeyDT a ≤ sortKeyDT b) clips
  exact hperm.mem_iff.mp hsome

/-- Counterexample to C7: in a folder with one parseable clip (time 5)
and one unparseable clip, the sort places the unparseable clip FIRST
(keyed `datetime.min`), not last, and the folder yields a single event
containing only the parseable timestamp - the unparseable clip is not
emitted as a single-segment event (which would make two events). -/
theorem unparseable_clips_cex :
    sortClips [some 5, none] = [none, some 5] ∧
    sortClips [some 5, none] ≠ [some 5, none] ∧
    folderEvents [some 5, none] = [[5]] ∧
    (folderEvents [some 5, none]).length ≠ 2 := by decide

/-! ## The per-camera capture map (`video_captures`)

`load_merged_video` fills a dict with keys in the fixed order
front, left, right, back (the insertion order of
`camera_clip_lists`); `seek_video` and `export_video_file` iterate
its values in that order. -/

structure VideoCaptures where
  front : Option MultiVideoCapture
  left : Option MultiVideoCapture
  right : Option MultiVideoCapture
  back : Option MultiVideoCapture
deriving DecidableEq

/-- `self.video_captures.values()` in dict insertion order. -/
def VideoCaptures.present (vc : VideoCaptures) : List MultiVideoCapture :=
  [vc.front, vc.left, vc.right, vc.back].filterMap id

/-- Apply an operation to every present capture (the `for` loops over
`self.video_captures.values()`). -/
def VideoCaptures.mapAll (vc : VideoCaptures)
    (f : MultiVideoCapture → MultiVideoCapture) : VideoCaptures :=
  ⟨vc.front.map f, vc.left.map f, vc.right.map f, vc.back.map f⟩

/-- `seek_video(value)` (lines 1252-1264): `value` is the slider value
in `[0, 100]`; when captures exist and a front capture is present,
`frame_number = int((value / 100) * total_frames(front))` (truncation)
and every present capture is sought there; otherwise nothing happens. -/
def seek_video (value : ℚ) (vc : VideoCaptures) : VideoCaptures :=
  if vc.present.isEmpty then vc
  else
    match vc.front with
    | none => vc
    | some cap =>
      let frame_number := (⌊value / 100 * (cap.getFrameCount : ℚ)⌋).toNat
      vc.mapAll (fun m => m.setPosFrames frame_number)

/-- C3 (amended): for a slider value `100 * f` with `f` in `[0, 1]`,
`seek_video` seeks every present capture to
`floor(f * totalFrames(front))` (truncation, not rounding) - but only
when the front capture is present; a capture map without a front track
is left entirely unchanged, no seek happens. -/
theorem seekFraction_requires_front (value : ℚ) (vc : VideoCaptures)
    (h0 : 0 ≤ value) (h1 : value ≤ 100) :
    (vc.front = none → seek_video value vc = vc) ∧
    (∀ cap, vc.front = some cap →
      seek_video value vc
        = vc.mapAll (fun m => m.setPosFrames
            ((⌊value / 100 * (cap.getFrameCount : ℚ)⌋).toNat))) := by
  constructor
  · intro hf
    by_cases hp : vc.present.isEmpty <;> simp [seek_video, hp, hf]
  · intro cap hf
    have hp : vc.present.isEmpty = false := by
      simp [VideoCaptures.present, hf]
    simp [seek_video, hp, hf]

/-- Witness for C3 at `value = 50`: a map with only a back capture is
unchanged; a map with a front capture seeks it. -/
theorem seekFraction_requires_front_witness :
    (seek_video 50 ⟨none, none, none, some (MultiVideoCapture.init [some 4])⟩
      = ⟨none, none, none, some (MultiVideoCapture.init [some 4])⟩) ∧
    (seek_video 50 ⟨some (MultiVideoCapture.init [some 10]), none, none, none⟩
      = VideoCaptures.mapAll ⟨some (MultiVideoCapture.init [some 10]), none, none, none⟩
          (fun m => m.setPosFrames
            ((⌊50 / 100 * ((MultiVideoCapture.init [some 10]).getFrameCount : ℚ)⌋).toNat))) :=
  ⟨(seekFraction_requires_front 50 ⟨none, none, none, some (MultiVideoCapture.init [some 4])⟩
      (by decide) (by decide)).1 rfl,
   (seekFraction_requires_front 50 ⟨some (MultiVideoCapture.init [some 10]), none, none, none⟩
      (by decide) (by decide)).2 (MultiVideoCapture.init [some 10]) rfl⟩

/-- Counterexample to C3: (i) with no front capture but a present back
capture of 4 total frames, `seek_video 50` changes nothing, although
the claim requires seeking the back track to `round(0.5 * 4) = 2`,
which would change its state; (ii) with a front capture of 10 frames,
`seek_video 75` sets position `7 = floor(7.5)`, not `round(7.5) = 8`. -/
theorem seekFraction_cex :
    (seek_video 50 ⟨none, none, none, some (MultiVideoCapture.init [some 4])⟩
      = ⟨none, none, none, some (MultiVideoCapture.init [some 4])⟩) ∧
    ((MultiVideoCapture.init [some 4]).setPosFrames 2 ≠ MultiVideoCapture.init [some 4]) ∧
    ((seek_video 75 ⟨some (MultiVideoCapture.init [some 10]), none, none, none⟩).front
      = some { video_paths := [some 10], current_clip_index := 0, local_pos := 7 }) ∧
    ((seek_video 75 ⟨some (MultiVideoCapture.init [some 10]), none, none, none⟩).front
      ≠ some { video_paths := [some 10], current_clip_index := 0, local_pos := 8 }) := by
  have hq : (⌊(75 : ℚ) / 100 * ((MultiVideoCapture.init [some 10]).getFrameCount : ℚ)⌋).toNat
      = 7 := by
    have h10 : ((MultiVideoCapture.init [some 10]).getFrameCount : ℚ) = 10 := by
      have hn : (MultiVideoCapture.init [some 10]).getFrameCount = 10 := rfl
      rw [hn]
      norm_num
    rw [h10]
    have hf : ⌊(75 : ℚ) / 100 * 10⌋ = 7 := by
      rw [Int.floor_eq_iff]
      norm_num
    rw [hf]
    rfl
  refine ⟨rfl, by decide, ?_, ?_⟩
  · show (VideoCaptures.mapAll ⟨some (MultiVideoCapture.init [some 10]), none, none, none⟩
        (fun m => m.setPosFrames
          ((⌊(75 : ℚ) / 100 * ((MultiVideoCapture.init [some 10]).getFrameCount : ℚ)⌋).toNat))).front
      = some { video_paths := [some 10], current_clip_index := 0, local_pos := 7 }
    simp only [hq]
    decide
  · show (VideoCaptures.mapAll ⟨some (MultiVideoCapture.init [some 10]), none, none, none⟩
        (fun m => m.setPosFrames
          ((⌊(75 : ℚ) / 100 * ((MultiVideoCapture.init [some 10]).getFrameCount : ℚ)⌋).toNat))).front
      ≠ some { video_paths := [some 10], current_clip_index := 0, local_pos := 8 }
    simp only [hq]
    decide

/-! ## The 2x2 composition (`show_merged_frame` lines 1150-1177 and the
export loop lines 748-766)

A cell of the grid: its content is either a (resized) camera frame or
the solid black fill `np.zeros(...)`, plus the text drawn on it, if
any.  The playback path builds the four contents and four label texts
in camera order and then draws every label; the export path draws a
label only on present cameras. -/

inductive Camera where
  | front
  | back
  | left
  | right
deriving DecidableEq

/-- `camera_order = ['front', 'back', 'left', 'right']`: cells 0 and 1
form the top row, cells 2 and 3 the bottom row. -/
def camera_order : List Camera := [Camera.front, Camera.back, Camera.left, Camera.right]

def cameraLabel : Camera → String
  | Camera.front => "FRONT"
  | Camera.back => "BACK"
  | Camera.left => "LEFT"
  | Camera.right => "RIGHT"

structure GridCell where
  content : Option Nat
  label : Option String
deriving DecidableEq

/-- The playback path: first loop fills `resized_frames` (camera frame
or black fill) and `labels` (name, with " (N/A)" appended when absent),
second loop draws every label onto its cell. -/
def show_merged_cells (frames : Camera → Option Nat) : List GridCell :=
  let resized := camera_order.map (fun c => frames c)
  let labels := camera_order.map (fun c =>
    match frames c with
    | some _ => cameraLabel c
    | none => cameraLabel c ++ " (N/A)")
  (resized.zip labels).map (fun p => { content := p.1, label := some p.2 })

/-- The export path: one loop, drawing the camera name only on present
cameras and appending a bare black fill for absent ones. -/
def export_cells (frames : Camera → Option Nat) : List GridCell :=
  camera_order.map (fun c =>
    match frames c with
    | some f => { content := some f, label := some (cameraLabel c) }
    | none => { content := none, label := none })

/-- C9 (amended): both paths lay the cells out in the fixed order
front, back, left, right; the playback path renders an absent camera as
a black cell labeled with the camera name plus " (N/A)", while the
export path renders it as a black cell with NO label at all. -/
theorem grid_layout_and_placeholders (frames : Camera → Option Nat) (i : Nat) (c : Camera)
    (h : camera_order[i]? = some c) :
    (show_merged_cells frames)[i]?
      = some { content := frames c,
               label := some (match frames c with
                 | some _ => cameraLabel c
                 | none => cameraLabel c ++ " (N/A)") } ∧
    (export_cells frames)[i]?
      = some (match frames c with
          | some f => { content := some f, label := some (cameraLabel c) }
          | none => { content := none, label := none }) := by
  match i with
  | 0 =>
    simp only [camera_order] at h
    rw [List.getElem?_cons_zero] at h
    cases h
    cases hf : frames Camera.front <;>
      simp [show_merged_cells, export_cells, camera_order, hf]
  | 1 =>
    simp only [camera_order, List.getElem?_cons_succ, List.getElem?_cons_zero] at h
    cases h
    cases hf : frames Camera.back <;>
      simp [show_merged_cells, export_cells, camera_order, hf]
  | 2 =>
    simp only [camera_order, List.getElem?_cons_succ, List.getElem?_cons_zero] at h
    cases h
    cases hf : frames Camera.left <;>
      simp [show_merged_cells, export_cells, camera_order, hf]
  | 3 =>
    simp only [camera_order, List.getElem?_cons_succ, List.getElem?_cons_zero] at h
    cases h
    cases hf : frames Camera.right <;>
      simp [show_merged_cells, export_cells, camera_order, hf]
  | (j + 4) =>
    simp [camera_order] at h

/-- Witness for C9 at cell 1 (the back camera, absent in this frame
map): the playback cell is labeled, the export cell is not. -/
theorem grid_layout_and_placeholders_witness :
    (show_merged_cells (fun c => match c with | Camera.front => some 3 | _ => none))[1]?
      = some { content := none, label := some ("BACK" ++ " (N/A)") } ∧
    (export_cells (fun c => match c with | Camera.front => some 3 | _ => none))[1]?
      = some { content := none, label := none } :=
  grid_layout_and_placeholders
    (fun c => match c with | Camera.front => some 3 | _ => none) 1 Camera.back rfl

/-- Counterexample to C9: with only the front camera present, the
export path's three absent cells carry no label at all - in particular
no "(N/A)" - while the playback path labels them. -/
theorem export_absent_cells_unlabeled_cex :
    export_cells (fun c => match c with | Camera.front => some 7 | _ => none)
      = [{ content := some 7, label := some "FRONT" },
         { content := none, label := none },
         { content := none, label := none },
         { content := none, label := none }] ∧
    show_merged_cells (fun c => match c with | Camera.front => some 7 | _ => none)
      = [{ content := some 7, label := some "FRONT" },
         { content := none, label := some "BACK (N/A)" },
         { content := none, label := some "LEFT (N/A)" },
         { content := none, label := some "RIGHT (N/A)" }] :=
  ⟨rfl, rfl⟩

/-! ## The export loop (`export_video_file`, lines 688-780)

The loop reads every capture once per iteration, stops when no capture
yielded a frame, writes one composite frame per iteration, and after
each write reports `(frame_count / total_frames) * 100` (a percentage)
when the reference total is positive.  The reference capture is the
front one when present, else the first present capture.  Fuel makes
the recursion explicit; `none` means the fuel ran out (or no capture
opened, where the source raises). -/

/-- One `for camera, cap in captures.items(): cap.read()` sweep:
whether any camera yielded a frame, and the advanced captures. -/
def read_all (caps : List MultiVideoCapture) : Bool × List MultiVideoCapture :=
  let stepped := caps.map MultiVideoCapture.read
  (stepped.any (fun p => p.1), stepped.map (fun p => p.2))

/-- The `while True` loop of `export_video_file`, with `t` the
precomputed reference total and `k` the current `frame_count`.  Each
iteration with a frame writes it and, when `t > 0`, reports
`((k+1) / t) * 100`. -/
def export_loop : Nat → List MultiVideoCapture → Nat → Nat → Option (Nat × List ℚ)
  | 0, _, _, _ => none
  | fuel + 1, caps, t, k =>
    let s := read_all caps
    if s.1 then
      match export_loop fuel s.2 t (k + 1) with
      | none => none
      | some (c, l) =>
        some (c, (if 0 < t then [((k + 1 : ℚ) / (t : ℚ)) * 100] else []) ++ l)
    else some (k, [])

/-- `front_cap = captures.get('front', list(captures.values())[0])`. -/
def VideoCaptures.refCap (vc : VideoCaptures) : Option MultiVideoCapture :=
  match vc.front with
  | some c => some c
  | none => vc.present.head?

/-- `export_video_file`: build the captures, take the reference total
from the reference capture, then run the loop; the count of written
frames and the reported progress values are returned. -/
def export_video_file (vc : VideoCaptures) (fuel : Nat) : Option (Nat × List ℚ) :=
  match vc.refCap with
  | none => none
  | some ref => export_loop fuel vc.present ref.getFrameCount 0

theorem export_loop_succ (fuel : Nat) (caps : List MultiVideoCapture) (t k : Nat) :
    export_loop (fuel + 1) caps t k
      = (if (read_all caps).1 then
          match export_loop fuel (read_all caps).2 t (k + 1) with
          | none => none
          | some (c, l) =>
            some (c, (if 0 < t then [((k + 1 : ℚ) / (t : ℚ)) * 100] else []) ++ l)
        else some (k, [])) := rfl

theorem export_loop_step (fuel : Nat) (caps caps' : List MultiVideoCapture) (t k : Nat)
    (h : read_all caps = (true, caps')) :
    export_loop (fuel + 1) caps t k
      = (match export_loop fuel caps' t (k + 1) with
        | none => none
        | some (c, l) =>
          some (c, (if 0 < t then [((k + 1 : ℚ) / (t : ℚ)) * 100] else []) ++ l)) := by
  rw [export_loop_succ, h]
  rfl

theorem export_loop_halt (fuel : Nat) (caps caps' : List MultiVideoCapture) (t k : Nat)
    (h : read_all caps = (false, caps')) :
    export_loop (fuel + 1) caps t k = some (k, []) := by
  rw [export_loop_succ, h]
  rfl

/-! ### Capture states that yield their frames contiguously -/

/-- A capture all of whose segments opened with at least one frame,
with its index in range and its local position inside the open clip.
Such captures are exactly the ones whose reads succeed until the whole
stream is consumed. -/
def GoodCap (m : MultiVideoCapture) : Prop :=
  (∀ c ∈ m.video_paths, 0 < clipFrames c) ∧
  m.current_clip_index < m.video_paths.length ∧
  m.local_pos ≤ clipFrames (m.video_paths.getD m.current_clip_index none)

instance decGoodCap (m : MultiVideoCapture) : Decidable (GoodCap m) :=
  inferInstanceAs (Decidable ((∀ c ∈ m.video_paths, 0 < clipFrames c) ∧
    m.current_clip_index < m.video_paths.length ∧
    m.local_pos ≤ clipFrames (m.video_paths.getD m.current_clip_index none)))

/-- Frames already consumed: the open clip's base offset plus the
local position. -/
def consumed (m : MultiVideoCapture) : Nat :=
  (frame_offsets m.video_paths).getD m.current_clip_index 0 + m.local_pos

theorem read_succ (m : MultiVideoCapture) (hg : GoodCap m)
    (hlt : consumed m < m.getFrameCount) :
    (m.read).1 = true ∧ GoodCap (m.read).2 ∧
    (m.read).2.video_paths = m.video_paths ∧
    (m.read).2.getFrameCount = m.getFrameCount ∧
    consumed (m.read).2 = consumed m + 1 := by
  obtain ⟨hall, hidx, hpos⟩ := hg
  have hgd := List.getD_eq_getElem m.video_paths none hidx
  have hc0 : 0 < clipFrames (m.video_paths.getD m.current_clip_index none) := by
    rw [hgd]
    exact hall _ (List.getElem_mem hidx)
  obtain ⟨n, hopen, hn⟩ : ∃ n, m.video_paths[m.current_clip_index]? = some (some n) ∧
      clipFrames (m.video_paths.getD m.current_clip_index none) = n :=
    ⟨clipFrames (m.video_paths.getD m.current_clip_index none),
      clip_openable_of_frames_pos m.video_paths m.current_clip_index hidx hc0, rfl⟩
  by_cases hpn : m.local_pos < n
  · have hread : m.read = (true, { m with local_pos := m.local_pos + 1 }) := by
      simp [MultiVideoCapture.read, hopen, hpn]
    rw [hread]
    refine ⟨rfl, ?_, rfl, rfl, ?_⟩
    · show GoodCap { m with local_pos := m.local_pos + 1 }
      refine ⟨hall, hidx, ?_⟩
      show m.local_pos + 1 ≤ clipFrames (m.video_paths.getD m.current_clip_index none)
      omega
    · show (frame_offsets m.video_paths).getD m.current_clip_index 0 + (m.local_pos + 1)
        = consumed m + 1
      simp only [consumed]
      omega
  · have hpeq : m.local_pos = n := by
      rw [hn] at hpos
      omega
    have hsplit := total_frames_split m.video_paths m.current_clip_index hidx
    rw [List.drop_eq_getElem_cons hidx] at hsplit
    simp only [List.map_cons, List.sum_cons] at hsplit
    have hn2 : clipFrames m.video_paths[m.current_clip_index] = n := by
      rw [← hgd]; exact hn
    rw [hn2] at hsplit
    have hnext : m.current_clip_index + 1 < m.video_paths.length := by
      by_contra hcon
      have hdnil : m.video_paths.drop (m.current_clip_index + 1) = [] :=
        List.drop_eq_nil_of_le (by omega)
      rw [hdnil] at hsplit
      rw [MultiVideoCapture.getFrameCount, consumed] at hlt
      simp only [List.map_nil, List.sum_nil] at hsplit
      omega
    have hgd1 := List.getD_eq_getElem m.video_paths none hnext
    have hc1 : 0 < clipFrames (m.video_paths.getD (m.current_clip_index + 1) none) := by
      rw [hgd1]
      exact hall _ (List.getElem_mem hnext)
    obtain ⟨k2, hopen1, hk2⟩ : ∃ k2, m.video_paths[m.current_clip_index + 1]? = some (some k2) ∧
        clipFrames (m.video_paths.getD (m.current_clip_index + 1) none) = k2 :=
      ⟨clipFrames (m.video_paths.getD (m.current_clip_index + 1) none),
        clip_openable_of_frames_pos m.video_paths _ hnext hc1, rfl⟩
    have hk2pos : 0 < k2 := by rw [← hk2]; exact hc1
    have hlen2 : m.current_clip_index < m.video_paths.length - 1 := by omega
    have hread : m.read = (true, { m with
        current_clip_index := m.current_clip_index + 1, local_pos := 1 }) := by
      simp [MultiVideoCapture.read, hopen, hpn, hlen2, hopen1, hk2pos]
    rw [hread]
    refine ⟨rfl, ?_, rfl, rfl, ?_⟩
    · show GoodCap { m with
        current_clip_index := m.current_clip_index + 1, local_pos := 1 }
      refine ⟨hall, hnext, ?_⟩
      show 1 ≤ clipFrames (m.video_paths.getD (m.current_clip_index + 1) none)
      omega
    · have hsucc := frame_offsets_succ m.video_paths m.current_clip_index hnext
      show (frame_offsets m.video_paths).getD (m.current_clip_index + 1) 0 + 1
        = consumed m + 1
      simp only [consumed]
      rw [hsucc]
      omega

theorem read_stop (m : MultiVideoCapture) (hg : GoodCap m)
    (hge : m.getFrameCount ≤ consumed m) :
    m.read = (false, m) := by
  obtain ⟨hall, hidx, hpos⟩ := hg
  have hgd := List.getD_eq_getElem m.video_paths none hidx
  have hc0 : 0 < clipFrames (m.video_paths.getD m.current_clip_index none) := by
    rw [hgd]
    exact hall _ (List.getElem_mem hidx)
  obtain ⟨n, hopen, hn⟩ : ∃ n, m.video_paths[m.current_clip_index]? = some (some n) ∧
      clipFrames (m.video_paths.getD m.current_clip_index none) = n :=
    ⟨clipFrames (m.video_paths.getD m.current_clip_index none),
      clip_openable_of_frames_pos m.video_paths m.current_clip_index hidx hc0, rfl⟩
  have hsplit := total_frames_split m.video_paths m.current_clip_index hidx
  rw [List.drop_eq_getElem_cons hidx] at hsplit
  simp only [List.map_cons, List.sum_cons] at hsplit
  have hn2 : clipFrames m.video_paths[m.current_clip_index] = n := by
    rw [← hgd]; exact hn
  rw [hn2] at hsplit
  rw [MultiVideoCapture.getFrameCount, consumed] at hge
  have hpos2 : m.local_pos ≤ n := by rw [hn] at hpos; exact hpos
  have hS : ((m.video_paths.drop (m.current_clip_index + 1)).map clipFrames).sum = 0 := by
    omega
  have hdnil : m.video_paths.drop (m.current_clip_index + 1) = [] := by
    cases hdeq : m.video_paths.drop (m.current_clip_index + 1) with
    | nil => rfl
    | cons d ds =>
      exfalso
      have hd : d ∈ m.video_paths := by
        have hmem : d ∈ m.video_paths.drop (m.current_clip_index + 1) := by
          rw [hdeq]; simp
        exact List.mem_of_mem_drop hmem
      have hdpos := hall d hd
      rw [hdeq] at hS
      simp at hS
      omega
  have hlen : m.video_paths.length ≤ m.current_clip_index + 1 := by
    by_contra hcon
    rw [List.drop_eq_getElem_cons (show m.current_clip_index + 1 < m.video_paths.length by
      omega)] at hdnil
    simp at hdnil
    omega
  have hnotlt : ¬ (m.current_clip_index < m.video_paths.length - 1) := by omega
  have hpn : ¬ (m.local_pos < n) := by omega
  simp [MultiVideoCapture.read, hopen, hpn, hnotlt]

theorem read_all_stop (caps : List MultiVideoCapture)
    (h : ∀ m ∈ caps, m.read = (false, m)) : read_all caps = (false, caps) := by
  have h1 : (read_all caps).1 = false := by
    simp only [read_all]
    rw [List.any_eq_false]
    intro p hp
    obtain ⟨m, hm, rfl⟩ := List.mem_map.mp hp
    simp [h m hm]
  have h2 : (read_all caps).2 = caps := by
    simp only [read_all, List.map_map]
    conv_rhs => rw [← List.map_id caps]
    apply List.map_congr_left
    intro m hm
    simp [Function.comp, h m hm]
  calc read_all caps = ((read_all caps).1, (read_all caps).2) := rfl
    _ = (false, caps) := by rw [h1, h2]

theorem read_all_step (caps : List MultiVideoCapture)
    (h : ∀ m ∈ caps, (m.read).1 = true) (hne : caps ≠ []) :
    read_all caps = (true, caps.map (fun m => (m.read).2)) := by
  have h1 : (read_all caps).1 = true := by
    simp only [read_all]
    rw [List.any_eq_true]
    cases caps with
    | nil => simp at hne
    | cons c cs =>
      exact ⟨c.read, List.mem_map_of_mem _ (List.mem_cons_self c cs),
        h c (List.mem_cons_self c cs)⟩
  have h2 : (read_all caps).2 = caps.map (fun m => (m.read).2) := by
    simp [read_all, List.map_map, Function.comp]
  calc read_all caps = ((read_all caps).1, (read_all caps).2) := rfl
    _ = _ := by rw [h1, h2]

theorem export_loop_run (t : Nat) (ht : 0 < t) :
    ∀ r k caps, k + r = t → caps ≠ [] →
      (∀ m ∈ caps, GoodCap m ∧ m.getFrameCount = t ∧ consumed m = k) →
      export_loop (r + 2) caps t k
        = some (t, (List.range' (k + 1) r).map
            (fun j : Nat => ((j : ℚ) / (t : ℚ)) * 100)) := by
  intro r
  induction r with
  | zero =>
    intro k caps hk hne hcaps
    have hstop : ∀ m ∈ caps, m.read = (false, m) := by
      intro m hm
      exact read_stop m (hcaps m hm).1 (by rw [(hcaps m hm).2.1, (hcaps m hm).2.2]; omega)
    have hra := read_all_stop caps hstop
    have hkt : k = t := by omega
    subst hkt
    show export_loop (1 + 1) caps k k = _
    rw [export_loop_halt 1 caps caps k k hra]
    simp [List.range']
  | succ r ih =>
    intro k caps hk hne hcaps
    have hklt : k < t := by omega
    have hstep : ∀ m ∈ caps, (m.read).1 = true := by
      intro m hm
      exact (read_succ m (hcaps m hm).1
        (by rw [(hcaps m hm).2.1, (hcaps m hm).2.2]; exact hklt)).1
    have hra := read_all_step caps hstep hne
    have hcaps' : ∀ m' ∈ caps.map (fun m => (m.read).2),
        GoodCap m' ∧ m'.getFrameCount = t ∧ consumed m' = k + 1 := by
      intro m' hm'
      obtain ⟨m, hm, hmm⟩ := List.mem_map.mp hm'
      obtain ⟨h1, h2, h3, h4, h5⟩ := read_succ m (hcaps m hm).1
        (by rw [(hcaps m hm).2.1, (hcaps m hm).2.2]; exact hklt)
      subst hmm
      exact ⟨h2, by rw [h4, (hcaps m hm).2.1], by rw [h5, (hcaps m hm).2.2]⟩
    have hne' : caps.map (fun m => (m.read).2) ≠ [] := by
      simpa using hne
    have hih := ih (k + 1) (caps.map (fun m => (m.read).2)) (by omega) hne' hcaps'
    show export_loop ((r + 2) + 1) caps t k = _
    rw [export_loop_step (r + 2) caps (caps.map (fun m => (m.read).2)) t k hra, hih]
    simp only [if_pos ht, List.singleton_append, List.range'_succ, List.map_cons]
    push_cast
    ring_nf

/-- C4 (amended): when every present capture's segments all opened with
at least one frame and every capture has the same total `t > 0` (equal
to the reference total), the export loop terminates after writing
exactly `t` composite frames and reports, after the k-th write, the
value `(k / t) * 100` - a percentage on a 0-100 scale, not a [0,1]
fraction - strictly increasing and ending at 100.  In general the loop
stops only when no capture yields a frame, so a camera longer than the
reference produces more than `totalFrames(reference)` writes and
percentages above 100; see the counterexample. -/
theorem exporter_writes_and_progress (vc : VideoCaptures) (t : Nat) (ht : 0 < t)
    (ref : MultiVideoCapture) (href : vc.refCap = some ref) (hrt : ref.getFrameCount = t)
    (hne : vc.present ≠ [])
    (hcaps : ∀ m ∈ vc.present, GoodCap m ∧ m.getFrameCount = t ∧ consumed m = 0) :
    export_video_file vc (t + 2)
      = some (t, (List.range' 1 t).map (fun j : Nat => ((j : ℚ) / (t : ℚ)) * 100)) ∧
    ((List.range' 1 t).map (fun j : Nat => ((j : ℚ) / (t : ℚ)) * 100)).Chain' (· < ·) ∧
    ((List.range' 1 t).map (fun j : Nat => ((j : ℚ) / (t : ℚ)) * 100)).getLast?
      = some 100 := by
  refine ⟨?_, ?_, ?_⟩
  · simp only [export_video_file, href]
    rw [hrt]
    exact export_loop_run t ht t 0 vc.present (by omega) hne hcaps
  · apply List.Pairwise.chain'
    rw [List.pairwise_map]
    refine (List.pairwise_lt_range' 1 t).imp ?_
    intro a b hab
    have htq : (0 : ℚ) < (t : ℚ) := by exact_mod_cast ht
    have hcast : (a : ℚ) < (b : ℚ) := by exact_mod_cast hab
    gcongr
  · obtain ⟨s, rfl⟩ : ∃ s, t = s + 1 := ⟨t - 1, by omega⟩
    have hconc : List.range' 1 (s + 1) = List.range' 1 s ++ [1 + s] :=
      List.range'_1_concat 1 s
    rw [hconc, List.map_append, List.map_cons, List.map_nil, List.getLast?_concat]
    congr 1
    have hne0 : ((s : ℚ) + 1) ≠ 0 := by positivity
    push_cast
    have hcomm : (1 + (s : ℚ)) = (s : ℚ) + 1 := by ring
    rw [hcomm, div_self hne0, one_mul]

/-- Witness for C4: front camera with one 2-frame segment, back camera
with two 1-frame segments; the exporter writes 2 frames and reports
50 then 100 (as the `(j / 2) * 100` sequence over `[1, 2]`). -/
theorem exporter_writes_and_progress_witness :
    export_video_file
        ⟨some (MultiVideoCapture.init [some 2]), none, none,
          some (MultiVideoCapture.init [some 1, some 1])⟩ (2 + 2)
      = some (2, (List.range' 1 2).map (fun j : Nat => ((j : ℚ) / ((2 : ℕ) : ℚ)) * 100)) ∧
    ((List.range' 1 2).map (fun j : Nat => ((j : ℚ) / ((2 : ℕ) : ℚ)) * 100)).Chain' (· < ·) ∧
    ((List.range' 1 2).map (fun j : Nat => ((j : ℚ) / ((2 : ℕ) : ℚ)) * 100)).getLast?
      = some 100 :=
  exporter_writes_and_progress
    ⟨some (MultiVideoCapture.init [some 2]), none, none,
      some (MultiVideoCapture.init [some 1, some 1])⟩ 2 (by decide)
    (MultiVideoCapture.init [some 2]) rfl rfl (by decide) (by decide)

/-- Counterexample to C4 as stated: with a 1-frame front (reference)
camera and a 2-frame back camera, the exporter writes 2 composite
frames, not `totalFrames(reference) = 1`, and reports 100 then 200 -
the values are percentages and exceed both 1 and 100, so the progress
sequence is neither `framesWritten / referenceTotalFrames` nor bounded
by 1. -/
theorem exporter_overruns_reference_cex :
    export_video_file
        ⟨some (MultiVideoCapture.init [some 1]), none, none,
          some (MultiVideoCapture.init [some 2])⟩ 5
      = some (2, [100, 200]) ∧
    (MultiVideoCapture.init [some 1]).getFrameCount = 1 := by
  have e2 : export_loop 3
      [(⟨[some 1], 0, 1⟩ : MultiVideoCapture), ⟨[some 2], 0, 2⟩] 1 2 = some (2, []) :=
    export_loop_halt 2 [(⟨[some 1], 0, 1⟩ : MultiVideoCapture), ⟨[some 2], 0, 2⟩]
      [(⟨[some 1], 0, 1⟩ : MultiVideoCapture), ⟨[some 2], 0, 2⟩] 1 2 (by decide)
  have e1 : export_loop 4
      [(⟨[some 1], 0, 1⟩ : MultiVideoCapture), ⟨[some 2], 0, 1⟩] 1 1 = some (2, [200]) := by
    rw [export_loop_step 3 [(⟨[some 1], 0, 1⟩ : MultiVideoCapture), ⟨[some 2], 0, 1⟩]
      [(⟨[some 1], 0, 1⟩ : MultiVideoCapture), ⟨[some 2], 0, 2⟩] 1 1 (by decide), e2]
    norm_num
  have e0 : export_loop 5
      [MultiVideoCapture.init [some 1], MultiVideoCapture.init [some 2]] 1 0
      = some (2, [100, 200]) := by
    rw [show (5 : Nat) = 4 + 1 from rfl,
      export_loop_step 4 [MultiVideoCapture.init [some 1], MultiVideoCapture.init [some 2]]
        [(⟨[some 1], 0, 1⟩ : MultiVideoCapture), ⟨[some 2], 0, 1⟩] 1 0 (by decide), e1]
    norm_num
  exact ⟨e0, rfl⟩
